import Mathlib

/-!
Shallow embedding of the aws-kinesis-shard-advisor core
(`src/lib/kinesis.ts` and `src/lib/regexGen.ts`).

Strings are modelled as `List Char`; JavaScript `number` values that may be
non-finite are modelled by `JsNumber` (finite values carried as exact
rationals; the lossy `Number(bigint)` coercion is modelled separately by
`roundNat`, IEEE-754 round-to-nearest-ties-to-even on integers); JavaScript
`bigint` values are modelled as `Nat` (all bigints in this code are
non-negative); thrown errors — both explicit `throw new Error(...)` sites
and the runtime `RangeError` of array creation — are modelled by
`Except Err`.  Randomness (`Math.random`) is modelled by an arbitrary stream
`g : Nat → Nat` of draws together with a cursor `k`; one call to the source's
`randInt lo hi` consumes one draw and may yield any value of `[lo, hi]`
(realised as `lo + g k % (hi - lo + 1)`), which is exactly the set of values
the source can produce there.
-/

/-- Error values: one per distinct `throw new Error(...)` site of the
source, plus the runtime `RangeError` thrown by array creation. -/
inductive Err where
  | invalidMd5              -- kinesis.ts: 'Invalid MD5 hex'
  | invalidShardCount       -- kinesis.ts: 'Invalid shardCount'
  | invalidArrayLength      -- kinesis.ts line 50: RangeError from Array.from for lengths >= 2^32
  | unsupportedGroup        -- regexGen.ts: groups / alternation
  | expectedBracket         -- regexGen.ts: 'Expected ['
  | negatedClass            -- regexGen.ts: negated character classes
  | emptyCharClass          -- regexGen.ts: empty character class
  | unterminatedEscape      -- regexGen.ts: 'Invalid escape at end of pattern'
  | invalidRange            -- regexGen.ts: 'Invalid range a-b'
  | unterminatedCharClass   -- regexGen.ts: 'Unterminated character class'
  | quantNoDigits           -- regexGen.ts: 'Invalid quantifier: expected number after \x7b'
  | quantNoClose            -- regexGen.ts: 'Invalid quantifier: expected \x7d'
  | quantBadBounds          -- regexGen.ts: 'Invalid quantifier bounds'
  | quantTooLarge           -- regexGen.ts: 'Quantifier too large'
  | danglingQuantifier      -- regexGen.ts: dangling quantifier
  | outOfFuel               -- artefact of the fuelled parse loop, never reached
deriving DecidableEq, Repr

/-- The spec's `InvalidQuantifier` kind groups the four malformed-quantifier
throw sites of `parseQuantifier`. -/
def Err.isInvalidQuantifier : Err → Bool
  | .quantNoDigits => true
  | .quantNoClose => true
  | .quantBadBounds => true
  | .quantTooLarge => true
  | _ => false

instance {ε α : Type} [DecidableEq ε] [DecidableEq α] : DecidableEq (Except ε α) := fun x y =>
  match x, y with
  | .ok a, .ok b =>
      if h : a = b then isTrue (by rw [h]) else isFalse (by simp [h])
  | .error a, .error b =>
      if h : a = b then isTrue (by rw [h]) else isFalse (by simp [h])
  | .ok _, .error _ => isFalse (by simp)
  | .error _, .ok _ => isFalse (by simp)

/-- A JavaScript `number`: a finite value (exact rational) or one of the
three non-finite values. -/
inductive JsNumber where
  | num (q : ℚ)
  | nan
  | inf
  | negInf
deriving DecidableEq, Repr

/-- `Number.isFinite`. -/
def JsNumber.isFinite : JsNumber → Bool
  | .num _ => true
  | _ => false

/-- JavaScript division `a / b` of finite numbers (exact on the rationals the
claims exercise; `b = 0` follows IEEE sign rules). -/
def jsDiv (a b : ℚ) : JsNumber :=
  if b = 0 then (if a = 0 then .nan else if 0 < a then .inf else .negInf)
  else .num (a / b)

/-- Division of a possibly non-finite numerator by a finite denominator. -/
def jsDivNum : JsNumber → ℚ → JsNumber
  | .num a, b => jsDiv a b
  | .nan, _ => .nan
  | .inf, b => if b < 0 then .negInf else .inf
  | .negInf, b => if b < 0 then .inf else .negInf

/-- JavaScript `>` between a count (a non-negative number) and the running
`maxCount` (which starts at `-Infinity`): `c > m`. -/
def jsGtNat (c : ℕ) : JsNumber → Bool
  | .num m => m < (c : ℚ)
  | .negInf => true
  | .nan => false
  | .inf => false

/- ---------------------------------------------------------------------
   kinesis.ts
--------------------------------------------------------------------- -/

/-- JavaScript `String.prototype.trim` whitespace (the ASCII part plus NBSP;
the claims' inputs contain none of these). -/
def isJsWs (c : Char) : Bool :=
  c = ' ' ∨ c = '\t' ∨ c = '\n' ∨ c = '\r' ∨ c = '\x0b' ∨ c = '\x0c' ∨ c = ' '

/-- `s.trim()`. -/
def jsTrim (s : List Char) : List Char :=
  ((s.dropWhile isJsWs).reverse.dropWhile isJsWs).reverse

/-- `s.toLowerCase()`, restricted to the ASCII mapping.  No non-ASCII
character lowercases into `[0-9a-f]`, so this is observationally faithful
for `md5ToBigInt`. -/
def jsToLower (s : List Char) : List Char :=
  s.map (fun c => if 'A' ≤ c ∧ c ≤ 'Z' then Char.ofNat (c.toNat + 32) else c)

/-- Is `c` one of the characters accepted by the regex `[0-9a-f]`? -/
def isHexLower (c : Char) : Bool :=
  ('0' ≤ c ∧ c ≤ '9') ∨ ('a' ≤ c ∧ c ≤ 'f')

/-- The regex test `/^[0-9a-f]\x7b32\x7d$/.test s`. -/
def isHex32 (s : List Char) : Bool :=
  s.length = 32 && s.all isHexLower

/-- Numeric value of one lowercase hex digit. -/
def hexDigitVal (c : Char) : ℕ :=
  if '0' ≤ c ∧ c ≤ '9' then c.toNat - '0'.toNat else c.toNat - 'a'.toNat + 10

/-- `BigInt('0x' ++ s)` for a hex-digit string `s`. -/
def hexToNat (s : List Char) : ℕ :=
  s.foldl (fun acc c => 16 * acc + hexDigitVal c) 0

/-- `md5ToBigInt` (kinesis.ts lines 3–7). -/
def md5ToBigInt (md5hex : List Char) : Except Err ℕ :=
  let normalized := jsToLower (jsTrim md5hex)
  if isHex32 normalized then .ok (hexToNat normalized) else .error .invalidMd5

/-- `BigInt(Math.floor(shardCount))` for a finite positive `shardCount`
(kinesis.ts line 13); as a `Nat` since the value is non-negative there. -/
def effectiveShardCount (q : ℚ) : ℕ := (⌊q⌋).toNat

/-- The `Number(bigint)` coercion on a non-negative integer: IEEE-754
round-to-nearest, ties to even, returned as the exact integer value of the
resulting double.  Integers below `2^53` convert exactly; a larger `n` is
rounded to the nearest multiple of the unit in the last place
`2^(⌊log2 n⌋ - 52)`, a tie going to the even multiple.  (The values
reaching this conversion in the source are far below `2^1024`, so overflow
to `Infinity` cannot occur.) -/
def roundNat (n : ℕ) : ℕ :=
  if n < 2 ^ 53 then n
  else if 2 ^ (Nat.log2 n - 52) < 2 * (n % 2 ^ (Nat.log2 n - 52)) ∨
      (2 * (n % 2 ^ (Nat.log2 n - 52)) = 2 ^ (Nat.log2 n - 52) ∧
        n / 2 ^ (Nat.log2 n - 52) % 2 = 1) then
    (n / 2 ^ (Nat.log2 n - 52) + 1) * 2 ^ (Nat.log2 n - 52)
  else
    n / 2 ^ (Nat.log2 n - 52) * 2 ^ (Nat.log2 n - 52)

/-- `hashKeyToShardIndex` (kinesis.ts lines 11–16).  The exact bigint
quotient `(hashKey * n) / 2^128` is converted to a double by the final
`Number(...)`, modelled by `roundNat`: lossless below `2^53`, rounding to
the nearest representable double above it. -/
def hashKeyToShardIndex (hashKey : ℕ) : JsNumber → Except Err ℕ
  | .num q =>
      if q ≤ 0 then .error .invalidShardCount
      else .ok (roundNat (hashKey * effectiveShardCount q / 2 ^ 128))
  | _ => .error .invalidShardCount

/-- `counts[idx]++`: increment position `i` of `l` (no-op past the end;
callers only use it with `i < l.length`). -/
def bump : List ℕ → ℕ → List ℕ
  | [], _ => []
  | x :: xs, 0 => (x + 1) :: xs
  | x :: xs, n + 1 => x :: bump xs n

/-- The counting loop of `summarizeDistribution` (kinesis.ts lines 51–53):
each index within `[0, shardCount)` bumps its bucket, others are ignored. -/
def applyIndexes (shardCount : ℤ) : List ℕ → List ℤ → List ℕ
  | counts, [] => counts
  | counts, idx :: rest =>
      applyIndexes shardCount
        (if 0 ≤ idx ∧ idx < shardCount then bump counts idx.toNat else counts) rest

/-- The max scan of `summarizeDistribution` (kinesis.ts lines 56–63):
`maxCount` starts at `-Infinity`, `maxShard` at 0, and each strictly greater
count takes over. -/
def scanMax : List ℕ → ℕ → JsNumber → ℕ → JsNumber × ℕ
  | [], _, mc, ms => (mc, ms)
  | c :: rest, i, mc, ms =>
      if jsGtNat c mc then scanMax rest (i + 1) (.num (c : ℚ)) i
      else scanMax rest (i + 1) mc ms

/-- The variance accumulation loop (kinesis.ts lines 64–68): sum of squared
deviations of the counts from `avg`.  When `avg` is not finite the counts
list is empty in every reachable state, and the sum is 0. -/
def varianceSum (counts : List ℕ) : JsNumber → JsNumber
  | .num a => .num (counts.foldl (fun acc c => acc + ((c : ℚ) - a) ^ 2) 0)
  | _ => if counts.isEmpty then .num 0 else .nan

/-- `DistributionSummary` (kinesis.ts lines 39–47).  `stddev` is
`Math.sqrt` of `variance`, an irrational float taken at the presentation
boundary; the summary carries the exactly-computed `variance` instead. -/
structure DistributionSummary where
  shardCount : ℤ
  totalKeys : ℕ
  counts : List ℕ
  maxCount : JsNumber
  maxShard : ℕ
  avg : JsNumber
  variance : JsNumber
deriving DecidableEq, Repr

/-- The body of `summarizeDistribution` (kinesis.ts lines 49–72) on the
domain where array creation succeeds.  `shardCount` is an integer (every
in-repo caller passes one); the `Array.from` length coercion clamps
negative values to 0, and its `RangeError` for lengths `≥ 2^32` is the
guard of `summarizeDistributionChecked` below, which is the model of the
full function. -/
def summarizeDistribution (shardCount : ℤ) (shardIndexes : List ℤ) :
    DistributionSummary :=
  let counts := applyIndexes shardCount (List.replicate shardCount.toNat 0) shardIndexes
  let totalKeys := shardIndexes.length
  let avg := jsDiv (totalKeys : ℚ) (shardCount : ℚ)
  let m := scanMax counts 0 .negInf 0
  let variance := jsDivNum (varianceSum counts avg) (shardCount : ℚ)
  { shardCount := shardCount, totalKeys := totalKeys, counts := counts,
    maxCount := m.1, maxShard := m.2, avg := avg, variance := variance }

/-- `summarizeDistribution` (kinesis.ts lines 49–72) including the
behaviour of its very first statement:
`Array.from({ length: shardCount }, () => 0)` performs `ArrayCreate`,
which throws `RangeError('Invalid array length')` whenever the coerced
length is `≥ 2^32`; below that ceiling the function runs to completion and
returns the summary computed by `summarizeDistribution`. -/
def summarizeDistributionChecked (shardCount : ℤ) (shardIndexes : List ℤ) :
    Except Err DistributionSummary :=
  if 2 ^ 32 ≤ shardCount then .error .invalidArrayLength
  else .ok (summarizeDistribution shardCount shardIndexes)

/- ---------------------------------------------------------------------
   regexGen.ts
--------------------------------------------------------------------- -/

/-- A parsed atom (regexGen.ts lines 1–6). -/
inductive Atom where
  | literal (value : Char)
  | charclass (chars : List Char)
  | digit
  | word
  | space
deriving DecidableEq, Repr

/-- A parsed piece: atom plus repeat bounds (regexGen.ts lines 8–12). -/
structure Piece where
  atom : Atom
  min : ℕ
  max : ℕ
deriving DecidableEq, Repr

/-- `isDigit` (regexGen.ts line 14). -/
def isDigit (c : Char) : Bool := '0' ≤ c ∧ c ≤ '9'

/-- `randInt lo hi` (regexGen.ts lines 16–20) given one random draw `r`:
the set of producible values is exactly `lo + r % (hi - lo + 1)` over all
`r` (for `hi ≥ lo`, every value of `[lo, hi]`). -/
def randInt (lo hi r : ℕ) : ℕ := lo + r % (hi + 1 - lo)

/-- `pick arr` (regexGen.ts line 22) given one random draw `r`.  On an empty
list the source indexes past the end (`undefined`); the default `'\x00'`
stands for that unreachable case. -/
def pick (arr : List Char) (r : ℕ) : Char :=
  arr.getD (randInt 0 (arr.length - 1) r) '\x00'

/-- `expandRange` (regexGen.ts lines 24–31); `charCodeAt` agrees with
`Char.toNat` on the claims' BMP characters. -/
def expandRange (a b : Char) : Except Err (List Char) :=
  if b.toNat < a.toNat then .error .invalidRange
  else .ok ((List.range (b.toNat - a.toNat + 1)).map (fun k => Char.ofNat (a.toNat + k)))

/-- The scanning loop of `parseCharClass` (regexGen.ts lines 42–71), with
the suffix of the pattern after `[` (or after `[^`-check) as cursor.
Branch order matches the source: `]` first, then escape, then the
three-character range lookahead, then a literal character.  Fuelled so the
definition stays kernel-computable: each iteration consumes at least one
character, so fuel `length + 1` always suffices and `.outOfFuel` is never
reached from `parseCharClass`. -/
def parseCharClassLoop : ℕ → List Char → List Char → Except Err (List Char × List Char)
  | 0, _, _ => .error .outOfFuel
  | _ + 1, _, [] => .error .unterminatedCharClass
  | fuel + 1, chars, c :: rest =>
      if c = ']' then
        if chars.isEmpty then .error .emptyCharClass else .ok (chars, rest)
      else if c = '\\' then
        match rest with
        | [] => .error .unterminatedEscape
        | e :: r => parseCharClassLoop fuel (chars ++ [e]) r
      else
        match rest with
        | '-' :: b :: r =>
            if b ≠ ']' then
              match expandRange c b with
              | .error err => .error err
              | .ok ex => parseCharClassLoop fuel (chars ++ ex) r
            else parseCharClassLoop fuel (chars ++ [c]) ('-' :: b :: r)
        | _ => parseCharClassLoop fuel (chars ++ [c]) rest

/-- `parseCharClass` (regexGen.ts lines 33–72): expects `[`, rejects a
leading `^`, then scans.  Returns the collected characters and the suffix
after the closing `]`. -/
def parseCharClass : List Char → Except Err (List Char × List Char)
  | '[' :: rest =>
      match rest with
      | '^' :: _ => .error .negatedClass
      | _ => parseCharClassLoop (rest.length + 1) [] rest
  | _ => .error .expectedBracket

/-- The two digit-reading while loops of `parseQuantifier`
(regexGen.ts lines 87–90 and 98–102). -/
def takeDigits : List Char → List Char × List Char
  | [] => ([], [])
  | c :: rest =>
      if isDigit c then
        let (ds, r) := takeDigits rest
        (c :: ds, r)
      else ([], c :: rest)

/-- `Number` of a non-empty digit string. -/
def digitsToNat (ds : List Char) : ℕ :=
  ds.foldl (fun acc c => 10 * acc + (c.toNat - '0'.toNat)) 0

/-- The closing steps of `parseQuantifier` (regexGen.ts lines 106–112):
require `\x7d`, then check the bounds.  (`min < 0` of line 109 cannot fire:
both bounds come from digit strings.) -/
def closeQuant (mn mx : ℕ) : List Char → Except Err (ℕ × ℕ × List Char)
  | '}' :: r =>
      if mx < mn then .error .quantBadBounds
      else if 100000 < mx then .error .quantTooLarge
      else .ok (mn, mx, r)
  | _ => .error .quantNoClose

/-- `parseQuantifier` (regexGen.ts lines 74–113), cursor as suffix; returns
`(min, max, rest)`. -/
def parseQuantifier : List Char → Except Err (ℕ × ℕ × List Char)
  | [] => .ok (1, 1, [])
  | c :: rest =>
      if c = '?' then .ok (0, 1, rest)
      else if c = '+' then .ok (1, 16, rest)
      else if c = '*' then .ok (0, 16, rest)
      else if c = '{' then
        let (n1, r1) := takeDigits rest
        if n1.isEmpty then .error .quantNoDigits
        else
          let mn := digitsToNat n1
          match r1 with
          | ',' :: r2 =>
              let (n2, r3) := takeDigits r2
              closeQuant mn (if n2.isEmpty then mn + 16 else digitsToNat n2) r3
          | _ => closeQuant mn mn r1
      else .ok (1, 1, c :: rest)

/-- The escape atoms of the main scan (regexGen.ts lines 142–145). -/
def escAtom (e : Char) : Atom :=
  if e = 'd' then .digit
  else if e = 'w' then .word
  else if e = 's' then .space
  else .literal e

/-- The parsing loop of `generateFromRegexLikePattern`
(regexGen.ts lines 120–157), fuelled: each iteration consumes at least one
character, so fuel `pattern.length + 1` always suffices and `.outOfFuel`
is never reached from `compilePattern`. -/
def compileLoop : ℕ → List Piece → List Char → Except Err (List Piece)
  | 0, _, _ => .error .outOfFuel
  | _ + 1, pieces, [] => .ok pieces
  | fuel + 1, pieces, c :: rest =>
      if c = '^' ∨ c = '$' then compileLoop fuel pieces rest
      else
        match (if c = '[' then
                 (parseCharClass (c :: rest)).map (fun p => (Atom.charclass p.1, p.2))
               else if c = '\\' then
                 match rest with
                 | [] => .error .unterminatedEscape
                 | e :: r => .ok (escAtom e, r)
               else if c = '{' ∨ c = '}' ∨ c = '?' ∨ c = '+' ∨ c = '*' then
                 .error .danglingQuantifier
               else .ok (.literal c, rest) : Except Err (Atom × List Char)) with
        | .error e => .error e
        | .ok (atom, r) =>
            match parseQuantifier r with
            | .error e => .error e
            | .ok (mn, mx, r2) => compileLoop fuel (pieces ++ [⟨atom, mn, mx⟩]) r2

/-- The compilation half of `generateFromRegexLikePattern`
(regexGen.ts lines 115–157): the group/alternation guard followed by the
parsing loop.  This is the spec's `compile`. -/
def compilePattern (pattern : List Char) : Except Err (List Piece) :=
  if pattern.contains '(' || pattern.contains ')' || pattern.contains '|' then
    .error .unsupportedGroup
  else compileLoop (pattern.length + 1) [] pattern

/-- `wordChars` (regexGen.ts line 159). -/
def wordChars : List Char :=
  "abcdefghijklmnopqrstuvwxyzABCDEFGHIJKLMNOPQRSTUVWXYZ0123456789_".toList

/-- `digits` (regexGen.ts line 160). -/
def digitChars : List Char := "0123456789".toList

/-- `spaces` (regexGen.ts line 161). -/
def spaceChars : List Char := [' ', '\t']

/-- One sampled character for an atom, consuming one draw for every kind
except a literal (regexGen.ts lines 167–172). -/
def sampleAtom (a : Atom) (r : ℕ) : Char :=
  match a with
  | .literal v => v
  | .charclass cs => pick cs r
  | .digit => pick digitChars r
  | .word => pick wordChars r
  | .space => pick spaceChars r

/-- Does sampling this atom consume a random draw?  (A literal does not.) -/
def atomDraws : Atom → ℕ
  | .literal _ => 0
  | _ => 1

/-- `n` repetitions of one atom (the inner loop of regexGen.ts
lines 166–173), threading the draw cursor. -/
def genRepeat (a : Atom) : ℕ → (ℕ → ℕ) → ℕ → List Char × ℕ
  | 0, _, k => ([], k)
  | n + 1, g, k =>
      let c := sampleAtom a (g k)
      let (s, k2) := genRepeat a n g (k + atomDraws a)
      (c :: s, k2)

/-- The generation half of `generateFromRegexLikePattern`
(regexGen.ts lines 163–176): the repeat count is the fixed `min` when
`min = max`, otherwise one `randInt` draw. -/
def generateOnePieces : List Piece → (ℕ → ℕ) → ℕ → List Char × ℕ
  | [], _, k => ([], k)
  | p :: rest, g, k =>
      let ck := if p.min = p.max then (p.min, k) else (randInt p.min p.max (g k), k + 1)
      let (s1, k2) := genRepeat p.atom ck.1 g ck.2
      let (s2, k3) := generateOnePieces rest g k2
      (s1 ++ s2, k3)

/-- `generateFromRegexLikePattern` (regexGen.ts lines 115–177):
compile, then generate once.  This is the spec's `generateOne` applied to a
freshly compiled pattern. -/
def generateFromRegexLikePattern (pattern : List Char) (g : ℕ → ℕ) (k : ℕ) :
    Except Err (List Char × ℕ) :=
  match compilePattern pattern with
  | .error e => .error e
  | .ok pieces => .ok (generateOnePieces pieces g k)

/-- `Math.max(0, Math.min(50000, Math.floor(count)))` (regexGen.ts
line 180). -/
def clampCount (count : ℚ) : ℕ := (max 0 (min 50000 ⌊count⌋)).toNat

/-- The generation loop of `generateMany` (regexGen.ts lines 181–183):
each iteration re-runs `generateFromRegexLikePattern` on the pattern. -/
def generateManyLoop (pattern : List Char) (g : ℕ → ℕ) : ℕ → ℕ → Except Err (List (List Char) × ℕ)
  | 0, k => .ok ([], k)
  | n + 1, k =>
      match generateFromRegexLikePattern pattern g k with
      | .error e => .error e
      | .ok (s, k2) =>
          match generateManyLoop pattern g n k2 with
          | .error e => .error e
          | .ok (out, k3) => .ok (s :: out, k3)

/-- `generateMany` (regexGen.ts lines 179–184). -/
def generateMany (pattern : List Char) (count : ℚ) (g : ℕ → ℕ) (k : ℕ) :
    Except Err (List (List Char) × ℕ) :=
  generateManyLoop pattern g (clampCount count) k

/- ---------------------------------------------------------------------
   Helper lemmas: hash-key path
--------------------------------------------------------------------- -/

theorem effectiveShardCount_natCast (p : ℕ) : effectiveShardCount (p : ℚ) = p := by
  simp [effectiveShardCount]

theorem roundNat_small (n : ℕ) (h : n < 2 ^ 53) : roundNat n = n := by
  rw [roundNat, if_pos h]

theorem roundNat_bounds (n : ℕ) (h : ¬ n < 2 ^ 53) :
    n / 2 ^ (Nat.log2 n - 52) * 2 ^ (Nat.log2 n - 52) ≤ roundNat n ∧
    roundNat n ≤ (n / 2 ^ (Nat.log2 n - 52) + 1) * 2 ^ (Nat.log2 n - 52) := by
  rw [roundNat, if_neg h]
  split
  · exact ⟨Nat.mul_le_mul_right _ (by omega), le_rfl⟩
  · exact ⟨le_rfl, Nat.mul_le_mul_right _ (by omega)⟩

theorem log2_ge_53 (n : ℕ) (h : 2 ^ 53 ≤ n) : 53 ≤ Nat.log2 n := by
  by_contra hc
  push_neg at hc
  have h2 := Nat.lt_log2_self (n := n)
  have h3 : (2 : ℕ) ^ (Nat.log2 n + 1) ≤ 2 ^ 53 :=
    Nat.pow_le_pow_right (by omega) (by omega)
  omega

theorem roundNat_ge (n : ℕ) (h : ¬ n < 2 ^ 53) : 2 ^ Nat.log2 n ≤ roundNat n := by
  have hn : 2 ^ 53 ≤ n := by omega
  have hl := Nat.log2_self_le (n := n) (by omega)
  have h53 := log2_ge_53 n hn
  have hdiv : 2 ^ Nat.log2 n / 2 ^ (Nat.log2 n - 52) = 2 ^ 52 := by
    rw [Nat.pow_div (by omega) (by omega)]
    congr 1
    omega
  have hq : 2 ^ 52 ≤ n / 2 ^ (Nat.log2 n - 52) := by
    rw [← hdiv]
    exact Nat.div_le_div_right hl
  have hmul : 2 ^ 52 * 2 ^ (Nat.log2 n - 52) = 2 ^ Nat.log2 n := by
    rw [← pow_add]
    congr 1
    omega
  calc 2 ^ Nat.log2 n = 2 ^ 52 * 2 ^ (Nat.log2 n - 52) := hmul.symm
    _ ≤ n / 2 ^ (Nat.log2 n - 52) * 2 ^ (Nat.log2 n - 52) :=
        Nat.mul_le_mul_right _ hq
    _ ≤ roundNat n := (roundNat_bounds n h).1

theorem roundNat_le (n : ℕ) (h : ¬ n < 2 ^ 53) :
    roundNat n ≤ 2 ^ (Nat.log2 n + 1) := by
  have h2 := Nat.lt_log2_self (n := n)
  have h53 := log2_ge_53 n (by omega)
  have hq : n / 2 ^ (Nat.log2 n - 52) < 2 ^ 53 := by
    apply Nat.div_lt_of_lt_mul
    calc n < 2 ^ (Nat.log2 n + 1) := h2
      _ = 2 ^ (Nat.log2 n - 52) * 2 ^ 53 := by
          rw [← pow_add]
          congr 1
          omega
  calc roundNat n ≤ (n / 2 ^ (Nat.log2 n - 52) + 1) * 2 ^ (Nat.log2 n - 52) :=
        (roundNat_bounds n h).2
    _ ≤ 2 ^ 53 * 2 ^ (Nat.log2 n - 52) := Nat.mul_le_mul_right _ (by omega)
    _ = 2 ^ (Nat.log2 n + 1) := by
        rw [← pow_add]
        congr 1
        omega

theorem log2_eq_of_bounds {n e : ℕ} (h1 : 2 ^ e ≤ n) (h2 : n < 2 ^ (e + 1)) :
    Nat.log2 n = e := by
  have hn : n ≠ 0 := by
    have : (0:ℕ) < 2 ^ e := by positivity
    omega
  have ha := Nat.log2_self_le hn
  have hb := Nat.lt_log2_self (n := n)
  have hup : Nat.log2 n < e + 1 := by
    by_contra hc
    push_neg at hc
    have : (2 : ℕ) ^ (e + 1) ≤ 2 ^ Nat.log2 n :=
      Nat.pow_le_pow_right (by omega) hc
    omega
  have hdown : e < Nat.log2 n + 1 := by
    by_contra hc
    push_neg at hc
    have : (2 : ℕ) ^ (Nat.log2 n + 1) ≤ 2 ^ e :=
      Nat.pow_le_pow_right (by omega) hc
    omega
  omega

theorem log2_le_log2 {a b : ℕ} (ha : a ≠ 0) (hab : a ≤ b) :
    Nat.log2 a ≤ Nat.log2 b := by
  by_contra hc
  push_neg at hc
  have h1 := Nat.log2_self_le ha
  have h2 := Nat.lt_log2_self (n := b)
  have h3 : (2 : ℕ) ^ (Nat.log2 b + 1) ≤ 2 ^ Nat.log2 a :=
    Nat.pow_le_pow_right (by omega) (by omega)
  omega

theorem roundNat_mono {a b : ℕ} (hab : a ≤ b) : roundNat a ≤ roundNat b := by
  by_cases ha : a < 2 ^ 53
  · rw [roundNat_small a ha]
    by_cases hb : b < 2 ^ 53
    · rw [roundNat_small b hb]
      exact hab
    · have h1 := roundNat_ge b hb
      have h2 : (2 : ℕ) ^ 53 ≤ 2 ^ Nat.log2 b :=
        Nat.pow_le_pow_right (by omega) (log2_ge_53 b (by omega))
      omega
  · have hb : ¬ b < 2 ^ 53 := by omega
    have hle : Nat.log2 a ≤ Nat.log2 b := log2_le_log2 (by omega) hab
    rcases Nat.lt_or_ge (Nat.log2 a) (Nat.log2 b) with hlt | hge
    · have h1 := roundNat_le a ha
      have h2 := roundNat_ge b hb
      have h3 : (2 : ℕ) ^ (Nat.log2 a + 1) ≤ 2 ^ Nat.log2 b :=
        Nat.pow_le_pow_right (by omega) (by omega)
      omega
    · have heq : Nat.log2 a = Nat.log2 b := by omega
      rw [roundNat, roundNat, if_neg ha, if_neg hb, heq]
      have hu0 : 0 < 2 ^ (Nat.log2 b - 52) := by positivity
      have hq : a / 2 ^ (Nat.log2 b - 52) ≤ b / 2 ^ (Nat.log2 b - 52) :=
        Nat.div_le_div_right hab
      rcases Nat.lt_or_ge (a / 2 ^ (Nat.log2 b - 52)) (b / 2 ^ (Nat.log2 b - 52))
        with hqlt | hqge
      · have hL : (if 2 ^ (Nat.log2 b - 52) < 2 * (a % 2 ^ (Nat.log2 b - 52)) ∨
            (2 * (a % 2 ^ (Nat.log2 b - 52)) = 2 ^ (Nat.log2 b - 52) ∧
              a / 2 ^ (Nat.log2 b - 52) % 2 = 1) then
            (a / 2 ^ (Nat.log2 b - 52) + 1) * 2 ^ (Nat.log2 b - 52)
          else a / 2 ^ (Nat.log2 b - 52) * 2 ^ (Nat.log2 b - 52)) ≤
            (a / 2 ^ (Nat.log2 b - 52) + 1) * 2 ^ (Nat.log2 b - 52) := by
          split
          · exact le_rfl
          · exact Nat.mul_le_mul_right _ (by omega)
        have hR : b / 2 ^ (Nat.log2 b - 52) * 2 ^ (Nat.log2 b - 52) ≤
            (if 2 ^ (Nat.log2 b - 52) < 2 * (b % 2 ^ (Nat.log2 b - 52)) ∨
              (2 * (b % 2 ^ (Nat.log2 b - 52)) = 2 ^ (Nat.log2 b - 52) ∧
                b / 2 ^ (Nat.log2 b - 52) % 2 = 1) then
              (b / 2 ^ (Nat.log2 b - 52) + 1) * 2 ^ (Nat.log2 b - 52)
            else b / 2 ^ (Nat.log2 b - 52) * 2 ^ (Nat.log2 b - 52)) := by
          split
          · exact Nat.mul_le_mul_right _ (by omega)
          · exact le_rfl
        refine le_trans hL (le_trans ?_ hR)
        exact Nat.mul_le_mul_right _ (by omega)
      · have hqeq : a / 2 ^ (Nat.log2 b - 52) = b / 2 ^ (Nat.log2 b - 52) := by omega
        have hda := Nat.div_add_mod a (2 ^ (Nat.log2 b - 52))
        have hdb := Nat.div_add_mod b (2 ^ (Nat.log2 b - 52))
        rw [hqeq] at hda
        have hr : a % 2 ^ (Nat.log2 b - 52) ≤ b % 2 ^ (Nat.log2 b - 52) := by omega
        rw [hqeq]
        by_cases hca : 2 ^ (Nat.log2 b - 52) < 2 * (a % 2 ^ (Nat.log2 b - 52)) ∨
            (2 * (a % 2 ^ (Nat.log2 b - 52)) = 2 ^ (Nat.log2 b - 52) ∧
              b / 2 ^ (Nat.log2 b - 52) % 2 = 1)
        · have hcb : 2 ^ (Nat.log2 b - 52) < 2 * (b % 2 ^ (Nat.log2 b - 52)) ∨
              (2 * (b % 2 ^ (Nat.log2 b - 52)) = 2 ^ (Nat.log2 b - 52) ∧
                b / 2 ^ (Nat.log2 b - 52) % 2 = 1) := by
            rcases hca with hca | ⟨hca, hodd⟩
            · left
              omega
            · rcases Nat.lt_or_ge (a % 2 ^ (Nat.log2 b - 52))
                (b % 2 ^ (Nat.log2 b - 52)) with hlt2 | hge2
              · left
                omega
              · exact Or.inr ⟨by omega, hodd⟩
          rw [if_pos hca, if_pos hcb]
        · rw [if_neg hca]
          split
          · exact Nat.mul_le_mul_right _ (by omega)
          · exact le_rfl

theorem hashKeyToShardIndex_natCast (h p : ℕ) (hp : 1 ≤ p) :
    hashKeyToShardIndex h (.num (p : ℚ)) = .ok (roundNat (h * p / 2 ^ 128)) := by
  have hpos : (0 : ℚ) < (p : ℚ) := by exact_mod_cast hp
  simp [hashKeyToShardIndex, effectiveShardCount_natCast, not_le.mpr hpos]

theorem shard_index_lt (h p : ℕ) (hh : h ≤ 2 ^ 128 - 1) (hp : 1 ≤ p) :
    h * p / 2 ^ 128 < p := by
  have hK : (0:ℕ) < 2 ^ 128 := by positivity
  rw [Nat.div_lt_iff_lt_mul hK]
  have hh' : h < 2 ^ 128 := by omega
  calc h * p < 2 ^ 128 * p := by
        exact Nat.mul_lt_mul_of_lt_of_le hh' le_rfl (by omega)
    _ = p * 2 ^ 128 := Nat.mul_comm _ _

/-- C1 (amended). For every hash key below `2^128` and every integer
partition count `p` with `1 ≤ p ≤ 2^53`, `hashKeyToShardIndex` returns
exactly `⌊h * p / 2^128⌋`, computed in exact integer arithmetic before the
final double conversion (which is lossless below `2^53`), and the result is
within `[0, p-1]`; the maximal hash key `2^128 - 1` yields exactly `p - 1`.
(Amendment: the original claim asserted the exact value, the `≤ p - 1`
bound and the `p - 1` maximum for every `p ≥ 1`, but at `p = 2^129` the
`Number(bigint)` conversion rounds the exact quotient `2^129 - 2` up to
`2^129 = p`, violating all three.) -/
theorem C1_shard_index_exact_and_bounded (h p : ℕ)
    (hh : h ≤ 2 ^ 128 - 1) (hp : 1 ≤ p) (hp53 : p ≤ 2 ^ 53) :
    hashKeyToShardIndex h (.num (p : ℚ)) = .ok (h * p / 2 ^ 128) ∧
    h * p / 2 ^ 128 ≤ p - 1 ∧
    hashKeyToShardIndex (2 ^ 128 - 1) (.num (p : ℚ)) = .ok (p - 1) := by
  have hlt := shard_index_lt h p hh hp
  refine ⟨?_, by omega, ?_⟩
  · rw [hashKeyToShardIndex_natCast h p hp, roundNat_small _ (by omega)]
  · rw [hashKeyToShardIndex_natCast _ p hp]
    have hK : (0:ℕ) < 2 ^ 128 := by positivity
    have key : (2 ^ 128 - 1) * p = 2 ^ 128 * (p - 1) + (2 ^ 128 - p) := by
      zify [hp, (by omega : p ≤ 2 ^ 128), show (1:ℕ) ≤ 2 ^ 128 from hK]
      ring
    rw [key, Nat.mul_add_div hK, Nat.div_eq_of_lt (by omega),
      roundNat_small _ (by omega)]
    norm_num

/-- Closed instantiation of `C1_shard_index_exact_and_bounded`. -/
theorem C1_witness :
    (5 ≤ 2 ^ 128 - 1 ∧ 1 ≤ 8 ∧ 8 ≤ 2 ^ 53) ∧
    (hashKeyToShardIndex 5 (.num ((8 : ℕ) : ℚ)) = .ok (5 * 8 / 2 ^ 128) ∧
     5 * 8 / 2 ^ 128 ≤ 8 - 1 ∧
     hashKeyToShardIndex (2 ^ 128 - 1) (.num ((8 : ℕ) : ℚ)) = .ok (8 - 1)) :=
  ⟨⟨by decide, by decide, by decide⟩,
   C1_shard_index_exact_and_bounded 5 8 (by decide) (by decide) (by decide)⟩

set_option maxRecDepth 100000 in
/-- C1 counterexample: at partition count `2^129` (a finite, exactly
representable double that passes validation) the maximal hash key's exact
quotient is `2^129 - 2`, which the final `Number(bigint)` conversion rounds
up to `2^129` (doubles near `2^129` are `2^76` apart) — so the returned
index equals `p` itself: it is neither `≤ p - 1` nor equal to `p - 1`. -/
theorem C1_counterexample :
    hashKeyToShardIndex (2 ^ 128 - 1) (.num (2 ^ 129)) = .ok (2 ^ 129) ∧
    ¬ ((2 ^ 129 : ℕ) ≤ 2 ^ 129 - 1) ∧ (2 ^ 129 : ℕ) ≠ 2 ^ 129 - 1 := by
  have hcast : ((2 : ℚ) ^ 129) = ((2 ^ 129 : ℕ) : ℚ) := by
    push_cast
    ring
  have heff : effectiveShardCount ((2 : ℚ) ^ 129) = 2 ^ 129 := by
    rw [hcast, effectiveShardCount_natCast]
  have harith : (2 ^ 128 - 1) * 2 ^ 129 / 2 ^ 128 = 2 ^ 129 - 2 := by decide
  have hbig : ¬ ((2 : ℕ) ^ 129 - 2 < 2 ^ 53) := by decide
  have hlog : Nat.log2 (2 ^ 129 - 2) = 128 :=
    log2_eq_of_bounds (by decide) (by decide)
  have hround : roundNat (2 ^ 129 - 2) = 2 ^ 129 := by
    rw [roundNat, if_neg hbig, hlog]
    decide
  refine ⟨?_, by decide, by decide⟩
  simp only [hashKeyToShardIndex]
  rw [if_neg (not_le.mpr (by positivity : (0 : ℚ) < 2 ^ 129)), heff, harith, hround]

/-- C2 (amended). `hashKeyToShardIndex` fails (with the invalid-shard-count
error) iff the shard count is not finite or is `≤ 0`; every finite shard
count `> 0` — integer or not — succeeds, returning the double-rounded exact
quotient for the effective count `⌊shardCount⌋`, which is `≥ 1` whenever
`shardCount ≥ 1` but equals 0 for `0 < shardCount < 1` (amendment: the
original claim asserted the effective count is always `≥ 1`). -/
theorem C2_shard_count_validation (h : ℕ) :
    (∀ sc : JsNumber, hashKeyToShardIndex h sc = .error .invalidShardCount ↔
        (sc.isFinite = false ∨ ∃ q, sc = .num q ∧ q ≤ 0)) ∧
    (∀ q : ℚ, 0 < q →
        hashKeyToShardIndex h (.num q) =
          .ok (roundNat (h * effectiveShardCount q / 2 ^ 128))) ∧
    (∀ q : ℚ, 1 ≤ q → 1 ≤ effectiveShardCount q) ∧
    (∀ q : ℚ, 0 < q → q < 1 → effectiveShardCount q = 0) := by
  refine ⟨?_, ?_, ?_, ?_⟩
  · intro sc
    cases sc with
    | num q =>
        by_cases hq : q ≤ 0 <;>
          simp [hashKeyToShardIndex, JsNumber.isFinite, hq]
    | nan => simp [hashKeyToShardIndex, JsNumber.isFinite]
    | inf => simp [hashKeyToShardIndex, JsNumber.isFinite]
    | negInf => simp [hashKeyToShardIndex, JsNumber.isFinite]
  · intro q hq
    simp [hashKeyToShardIndex, not_le.mpr hq]
  · intro q hq
    have : (1 : ℤ) ≤ ⌊q⌋ := by
      rw [Int.le_floor]; exact_mod_cast hq
    simp only [effectiveShardCount]
    omega
  · intro q hq0 hq1
    have : ⌊q⌋ = 0 := by
      rw [Int.floor_eq_zero_iff]
      constructor
      · exact le_of_lt hq0
      · exact hq1
    simp [effectiveShardCount, this]

/-- Closed instantiation of `C2_shard_count_validation`. -/
theorem C2_witness :
    (0 : ℚ) < 8 ∧
    hashKeyToShardIndex 3 (.num 8) =
      .ok (roundNat (3 * effectiveShardCount 8 / 2 ^ 128)) :=
  ⟨by decide, (C2_shard_count_validation 3).2.1 8 (by decide)⟩

/-- C2 counterexample: the finite shard count `1/2 > 0` passes validation
and succeeds, but the effective count `⌊1/2⌋ = 0` is not `≥ 1`. -/
theorem C2_counterexample :
    hashKeyToShardIndex 5 (.num (1 / 2)) = .ok 0 ∧
    ¬ (1 ≤ effectiveShardCount (1 / 2)) := by
  have hfl : ⌊(1 / 2 : ℚ)⌋ = 0 := by
    rw [Int.floor_eq_zero_iff]
    constructor <;> norm_num
  have heff : effectiveShardCount (1 / 2) = 0 := by
    rw [effectiveShardCount, hfl]
    rfl
  constructor
  · simp only [hashKeyToShardIndex]
    rw [if_neg (by norm_num : ¬ ((1 / 2 : ℚ) ≤ 0)), heff]
    norm_num [roundNat]
  · omega

/-- C8. For a fixed valid shard count, the shard index is monotone in the
hash key: the exact quotient is monotone in the hash key and the final
double rounding is monotone, so hash keys in order map to indexes in
(weak) order. -/
theorem C8_shard_index_monotone (p h1 h2 i1 i2 : ℕ)
    (hp : 1 ≤ p) (hh2 : h2 ≤ 2 ^ 128 - 1) (hlt : h1 < h2)
    (e1 : hashKeyToShardIndex h1 (.num (p : ℚ)) = .ok i1)
    (e2 : hashKeyToShardIndex h2 (.num (p : ℚ)) = .ok i2) : i1 ≤ i2 := by
  rw [hashKeyToShardIndex_natCast h1 p hp] at e1
  rw [hashKeyToShardIndex_natCast h2 p hp] at e2
  have hi1 : i1 = roundNat (h1 * p / 2 ^ 128) := by
    cases e1; rfl
  have hi2 : i2 = roundNat (h2 * p / 2 ^ 128) := by
    cases e2; rfl
  subst hi1; subst hi2
  exact roundNat_mono
    (Nat.div_le_div_right (Nat.mul_le_mul_right p (le_of_lt hlt)))

/-- Closed instantiation of `C8_shard_index_monotone`. -/
theorem C8_witness :
    (1 ≤ 8 ∧ (1 : ℕ) ≤ 2 ^ 128 - 1 ∧ (0 : ℕ) < 1) ∧ (0 : ℕ) ≤ 0 :=
  ⟨⟨by decide, by decide, by decide⟩,
   C8_shard_index_monotone 8 0 1 0 0 (by decide) (by decide) (by decide)
     (by decide) (by decide)⟩

/- ---------------------------------------------------------------------
   Helper lemmas: hex parsing
--------------------------------------------------------------------- -/

theorem hexDigitVal_le (c : Char) (hc : isHexLower c = true) : hexDigitVal c ≤ 15 := by
  simp only [isHexLower, decide_eq_true_eq, Bool.or_eq_true] at hc
  rcases hc with ⟨h0, h9⟩ | ⟨ha, hf⟩
  · have h0' : 48 ≤ c.toNat := h0
    have h9' : c.toNat ≤ 57 := h9
    rw [hexDigitVal, if_pos ⟨h0, h9⟩]
    show c.toNat - 48 ≤ 15
    omega
  · have ha' : 97 ≤ c.toNat := ha
    have hf' : c.toNat ≤ 102 := hf
    have h9 : ¬ (c ≤ '9') := by
      intro h
      have h' : c.toNat ≤ 57 := h
      omega
    rw [hexDigitVal, if_neg (by tauto)]
    show c.toNat - 97 + 10 ≤ 15
    omega

theorem hexFold_lt (s : List Char) : ∀ acc : ℕ, (∀ c ∈ s, isHexLower c = true) →
    s.foldl (fun acc c => 16 * acc + hexDigitVal c) acc < 16 ^ s.length * (acc + 1) := by
  induction s with
  | nil => intro acc _; simpa using Nat.lt_succ_self acc
  | cons c tl ih =>
      intro acc hall
      have hd : hexDigitVal c ≤ 15 :=
        hexDigitVal_le c (hall c (List.mem_cons_self c tl))
      have htl := ih (16 * acc + hexDigitVal c)
        (fun x hx => hall x (List.mem_cons_of_mem _ hx))
      simp only [List.foldl_cons, List.length_cons]
      calc tl.foldl (fun acc c => 16 * acc + hexDigitVal c) (16 * acc + hexDigitVal c)
          < 16 ^ tl.length * (16 * acc + hexDigitVal c + 1) := htl
        _ ≤ 16 ^ tl.length * (16 * (acc + 1)) :=
            Nat.mul_le_mul_left _ (by omega)
        _ = 16 ^ (tl.length + 1) * (acc + 1) := by ring

theorem hexToNat_le (s : List Char) (h32 : isHex32 s = true) :
    hexToNat s ≤ 2 ^ 128 - 1 := by
  simp only [isHex32, Bool.and_eq_true, decide_eq_true_eq, List.all_eq_true] at h32
  have := hexFold_lt s 0 h32.2
  rw [h32.1] at this
  have h16 : (16 : ℕ) ^ 32 * (0 + 1) = 2 ^ 128 := by norm_num
  rw [h16] at this
  rw [hexToNat] at *
  omega

/-- C3. `md5ToBigInt` trims and lowercases its input, fails with the
invalid-digest error exactly when the normalized form is not 32 lowercase
hex characters, and otherwise returns the exact base-16 value of those
digits — always in `[0, 2^128 - 1]` and depending only on the normalized
digest (determinism); the all-zeros digest maps to 0 and the all-`f`
digest to `2^128 - 1`. -/
theorem C3_md5ToBigInt_spec :
    (∀ s : List Char, md5ToBigInt s = .error .invalidMd5 ↔
        isHex32 (jsToLower (jsTrim s)) = false) ∧
    (∀ s : List Char, isHex32 (jsToLower (jsTrim s)) = true →
        md5ToBigInt s = .ok (hexToNat (jsToLower (jsTrim s)))) ∧
    (∀ s n, md5ToBigInt s = .ok n → n ≤ 2 ^ 128 - 1) ∧
    (∀ s t : List Char, jsToLower (jsTrim s) = jsToLower (jsTrim t) →
        md5ToBigInt s = md5ToBigInt t) ∧
    md5ToBigInt (List.replicate 32 '0') = .ok 0 ∧
    md5ToBigInt (List.replicate 32 'f') = .ok (2 ^ 128 - 1) := by
  refine ⟨?_, ?_, ?_, ?_, by decide, by decide⟩
  · intro s
    by_cases hx : isHex32 (jsToLower (jsTrim s)) = true <;>
      simp [md5ToBigInt, hx] <;> simp_all
  · intro s hx
    simp [md5ToBigInt, hx]
  · intro s n h
    by_cases hx : isHex32 (jsToLower (jsTrim s)) = true
    · simp only [md5ToBigInt, hx, if_true] at h
      cases h
      exact hexToNat_le _ hx
    · simp [md5ToBigInt, hx] at h
  · intro s t he
    simp only [md5ToBigInt, he]

/-- Closed instantiation of `C3_md5ToBigInt_spec`. -/
theorem C3_witness :
    isHex32 (jsToLower (jsTrim (List.replicate 32 '0'))) = true ∧
    md5ToBigInt (List.replicate 32 '0') =
      .ok (hexToNat (jsToLower (jsTrim (List.replicate 32 '0')))) :=
  ⟨by decide, C3_md5ToBigInt_spec.2.1 (List.replicate 32 '0') (by decide)⟩

/- ---------------------------------------------------------------------
   Helper lemmas: distribution summary
--------------------------------------------------------------------- -/

theorem bump_length (l : List ℕ) : ∀ i, (bump l i).length = l.length := by
  induction l with
  | nil => intro i; rfl
  | cons x xs ih =>
      intro i
      cases i with
      | zero => rfl
      | succ n => simpa [bump] using ih n

theorem bump_sum (l : List ℕ) : ∀ i, i < l.length → (bump l i).sum = l.sum + 1 := by
  induction l with
  | nil => intro i h; simp at h
  | cons x xs ih =>
      intro i h
      cases i with
      | zero => simp [bump]; omega
      | succ n =>
          have := ih n (by simpa using h)
          simp [bump, this]
          omega

theorem bump_getD (l : List ℕ) : ∀ i j, i < l.length →
    (bump l i).getD j 0 = l.getD j 0 + (if i = j then 1 else 0) := by
  induction l with
  | nil => intro i j h; simp at h
  | cons x xs ih =>
      intro i j h
      cases i with
      | zero =>
          cases j with
          | zero => simp [bump]
          | succ m => simp [bump]
      | succ n =>
          cases j with
          | zero => simp [bump]
          | succ m =>
              have := ih n m (by simpa using h)
              simpa [bump] using this

theorem applyIndexes_length (sc : ℤ) (idxs : List ℤ) :
    ∀ counts, (applyIndexes sc counts idxs).length = counts.length := by
  induction idxs with
  | nil => intro counts; rfl
  | cons idx rest ih =>
      intro counts
      by_cases h : 0 ≤ idx ∧ idx < sc
      · simp only [applyIndexes, if_pos h]
        rw [ih, bump_length]
      · simp only [applyIndexes, if_neg h]
        exact ih counts

theorem applyIndexes_sum (sc : ℤ) (idxs : List ℤ) :
    ∀ counts, counts.length = sc.toNat →
    (applyIndexes sc counts idxs).sum =
      counts.sum + (idxs.filter (fun i => decide (0 ≤ i ∧ i < sc))).length := by
  induction idxs with
  | nil => intro counts _; simp [applyIndexes]
  | cons idx rest ih =>
      intro counts hlen
      by_cases h : 0 ≤ idx ∧ idx < sc
      · have hi : idx.toNat < counts.length := by omega
        simp only [applyIndexes, if_pos h]
        rw [ih _ (by rw [bump_length]; exact hlen), bump_sum _ _ hi]
        simp [List.filter, h]
        omega
      · simp only [applyIndexes, if_neg h]
        rw [ih counts hlen]
        simp [List.filter, h]

theorem applyIndexes_getD (sc : ℤ) (idxs : List ℤ) (j : ℤ)
    (hj0 : 0 ≤ j) (hjs : j < sc) :
    ∀ counts, counts.length = sc.toNat →
    (applyIndexes sc counts idxs).getD j.toNat 0 =
      counts.getD j.toNat 0 + (idxs.filter (fun i => decide (i = j))).length := by
  induction idxs with
  | nil => intro counts _; simp [applyIndexes]
  | cons idx rest ih =>
      intro counts hlen
      by_cases h : 0 ≤ idx ∧ idx < sc
      · have hi : idx.toNat < counts.length := by omega
        simp only [applyIndexes, if_pos h]
        rw [ih _ (by rw [bump_length]; exact hlen), bump_getD _ _ _ hi]
        by_cases hij : idx = j
        · rw [if_pos (by omega)]
          simp [List.filter, hij]
          omega
        · rw [if_neg (by omega)]
          simp [List.filter, hij]
      · simp only [applyIndexes, if_neg h]
        rw [ih counts hlen]
        have hij : ¬ (idx = j) := fun he => h (by omega)
        simp [List.filter, hij]

theorem applyIndexes_nil (sc : ℤ) (idxs : List ℤ) :
    applyIndexes sc [] idxs = [] := by
  induction idxs with
  | nil => rfl
  | cons idx rest ih =>
      by_cases h : 0 ≤ idx ∧ idx < sc <;>
        simp only [applyIndexes, if_pos, if_neg, h, bump] <;> exact ih

theorem scanMax_go (l : List ℕ) : ∀ (i ms m : ℕ),
    ∃ (M : ℕ) (j : ℕ), scanMax l i (.num (m : ℚ)) ms = (.num (M : ℚ), j) ∧ m ≤ M ∧
      (∀ c ∈ l, c ≤ M) ∧
      ((M = m ∧ j = ms) ∨
       (m < M ∧ ∃ k, k < l.length ∧ l.getD k 0 = M ∧ j = i + k ∧
         ∀ k' < k, l.getD k' 0 < M)) := by
  induction l with
  | nil =>
      intro i ms m
      exact ⟨m, ms, rfl, le_rfl, by simp, Or.inl ⟨rfl, rfl⟩⟩
  | cons c tl ih =>
      intro i ms m
      by_cases hcm : m < c
      · have hgt : jsGtNat c (.num (m : ℚ)) = true := by
          simp only [jsGtNat, decide_eq_true_eq]
          exact_mod_cast hcm
        obtain ⟨M, j, heq, hcM, hall, hbr⟩ := ih (i + 1) i c
        refine ⟨M, j, ?_, by omega, ?_, ?_⟩
        · rw [scanMax, if_pos hgt, heq]
        · intro x hx
          rcases List.mem_cons.mp hx with hx | hx
          · omega
          · exact hall x hx
        · right
          rcases hbr with ⟨hMc, hjms⟩ | ⟨hlt, k, hk, hget, hj, hearly⟩
          · refine ⟨by omega, 0, by simp, ?_, by omega, ?_⟩
            · simpa using hMc.symm
            · intro k' hk'; omega
          · refine ⟨by omega, k + 1, by simp; omega, by simpa using hget, by omega, ?_⟩
            intro k' hk'
            cases k' with
            | zero => simpa using hlt
            | succ k'' =>
                have := hearly k'' (by omega)
                simpa using this
      · have hgt : jsGtNat c (.num (m : ℚ)) = false := by
          simp only [jsGtNat, decide_eq_false_iff_not]
          push_neg
          exact_mod_cast not_lt.mp hcm
        obtain ⟨M, j, heq, hmM, hall, hbr⟩ := ih (i + 1) ms m
        refine ⟨M, j, ?_, hmM, ?_, ?_⟩
        · rw [scanMax, if_neg (by simp [hgt]), heq]
        · intro x hx
          rcases List.mem_cons.mp hx with hx | hx
          · omega
          · exact hall x hx
        · rcases hbr with ⟨hMm, hjms⟩ | ⟨hlt, k, hk, hget, hj, hearly⟩
          · exact Or.inl ⟨hMm, hjms⟩
          · right
            refine ⟨hlt, k + 1, by simp; omega, by simpa using hget, by omega, ?_⟩
            intro k' hk'
            cases k' with
            | zero => simp; omega
            | succ k'' =>
                have := hearly k'' (by omega)
                simpa using this

theorem scanMax_spec (c : ℕ) (tl : List ℕ) :
    ∃ (M : ℕ) (j : ℕ), scanMax (c :: tl) 0 .negInf 0 = (.num (M : ℚ), j) ∧
      j < (c :: tl).length ∧ (c :: tl).getD j 0 = M ∧
      (∀ j' < j, (c :: tl).getD j' 0 < M) ∧
      (∀ j' < (c :: tl).length, (c :: tl).getD j' 0 ≤ M) := by
  have h1 : scanMax (c :: tl) 0 .negInf 0 = scanMax tl 1 (.num (c : ℚ)) 0 := by
    rw [scanMax, if_pos (by simp [jsGtNat])]
  obtain ⟨M, j, heq, hcM, hall, hbr⟩ := scanMax_go tl 1 0 c
  refine ⟨M, j, by rw [h1, heq], ?_, ?_, ?_, ?_⟩
  · rcases hbr with ⟨_, hj⟩ | ⟨_, k, hk, _, hj, _⟩ <;> simp <;> omega
  · rcases hbr with ⟨hMc, hj⟩ | ⟨_, k, hk, hget, hj, _⟩
    · subst hj; simpa using hMc.symm
    · subst hj
      have h1k : 1 + k = k + 1 := by omega
      rw [h1k]
      simpa using hget
  · rcases hbr with ⟨hMc, hj⟩ | ⟨hlt, k, hk, hget, hj, hearly⟩
    · subst hj; intro j' hj'; omega
    · subst hj
      intro j' hj'
      cases j' with
      | zero => simpa using hlt
      | succ j'' =>
          have := hearly j'' (by omega)
          simpa using this
  · intro j' hj'
    cases j' with
    | zero => simpa using hcM
    | succ j'' =>
        simp only [List.getD_cons_succ]
        by_cases hin : j'' < tl.length
        · refine hall _ ?_
          rw [List.getD_eq_getElem _ _ hin]
          exact List.getElem_mem _
        · rw [List.getD_eq_default _ _ (by omega)]
          omega

theorem summarize_counts_def (sc : ℤ) (idxs : List ℤ) :
    (summarizeDistribution sc idxs).counts =
      applyIndexes sc (List.replicate sc.toNat 0) idxs := rfl

theorem summarize_totalKeys_def (sc : ℤ) (idxs : List ℤ) :
    (summarizeDistribution sc idxs).totalKeys = idxs.length := rfl

theorem summarize_avg_def (sc : ℤ) (idxs : List ℤ) :
    (summarizeDistribution sc idxs).avg =
      jsDiv (idxs.length : ℚ) (sc : ℚ) := rfl

theorem summarize_maxCount_def (sc : ℤ) (idxs : List ℤ) :
    (summarizeDistribution sc idxs).maxCount =
      (scanMax (applyIndexes sc (List.replicate sc.toNat 0) idxs) 0 .negInf 0).1 := rfl

theorem summarize_maxShard_def (sc : ℤ) (idxs : List ℤ) :
    (summarizeDistribution sc idxs).maxShard =
      (scanMax (applyIndexes sc (List.replicate sc.toNat 0) idxs) 0 .negInf 0).2 := rfl

/-- C5. `summarizeDistribution` builds a zero-initialized count array of
length `shardCount` and increments the bucket of every in-range index,
silently ignoring out-of-range indexes: `totalKeys` is always the number of
indexes, each bucket holds the number of occurrences of its index, the
counts sum to the number of in-range indexes, and when every index is in
range the counts sum to the number of indexes. -/
theorem C5_summarize_counts (sc : ℤ) (idxs : List ℤ) :
    (summarizeDistribution sc idxs).totalKeys = idxs.length ∧
    (summarizeDistribution sc idxs).counts.length = sc.toNat ∧
    (summarizeDistribution sc idxs).counts.sum =
      (idxs.filter (fun i => decide (0 ≤ i ∧ i < sc))).length ∧
    (∀ j : ℤ, 0 ≤ j → j < sc →
      (summarizeDistribution sc idxs).counts.getD j.toNat 0 =
        (idxs.filter (fun i => decide (i = j))).length) ∧
    ((∀ i ∈ idxs, 0 ≤ i ∧ i < sc) →
      (summarizeDistribution sc idxs).counts.sum = idxs.length) := by
  have hrep : (List.replicate sc.toNat (0 : ℕ)).length = sc.toNat := by simp
  refine ⟨rfl, ?_, ?_, ?_, ?_⟩
  · rw [summarize_counts_def, applyIndexes_length, hrep]
  · rw [summarize_counts_def, applyIndexes_sum sc idxs _ hrep]
    simp
  · intro j hj0 hjs
    rw [summarize_counts_def, applyIndexes_getD sc idxs j hj0 hjs _ hrep]
    have hz : (List.replicate sc.toNat (0 : ℕ)).getD j.toNat 0 = 0 := by
      rcases lt_or_ge j.toNat sc.toNat with h | h
      · rw [List.getD_eq_getElem _ _ (by simpa using h)]
        simp
      · rw [List.getD_eq_default _ _ (by simpa using h)]
    rw [hz, Nat.zero_add]
  · intro hall
    rw [summarize_counts_def, applyIndexes_sum sc idxs _ hrep]
    rw [List.filter_eq_self.mpr (fun a ha => by simpa using hall a ha)]
    simp

/-- Closed instantiation of `C5_summarize_counts`. -/
theorem C5_witness :
    (∀ i ∈ ([0, 0, 1, 2, 2, 2] : List ℤ), 0 ≤ i ∧ i < 4) ∧
    (summarizeDistribution 4 [0, 0, 1, 2, 2, 2]).counts.sum =
      ([0, 0, 1, 2, 2, 2] : List ℤ).length :=
  ⟨by decide, (C5_summarize_counts 4 [0, 0, 1, 2, 2, 2]).2.2.2.2 (by decide)⟩

/-- C9. For every shard count `≥ 1`, `summarizeDistribution` reports
`totalKeys` = number of indexes, `avg` = `totalKeys / shardCount`, and a
max scan that keeps the first bucket whose count strictly exceeds all
earlier ones: `maxShard` is the lowest index attaining the maximum count
`maxCount`.  Concretely, `summarize(4, [0,0,1,2,2,2])` yields counts
`[2,1,3,0]`, totalKeys 6, average `3/2`, and maxCount 3 at shard 2. -/
theorem C9_summarize_stats :
    (∀ (sc : ℤ) (idxs : List ℤ), 1 ≤ sc →
      (summarizeDistribution sc idxs).totalKeys = idxs.length ∧
      (summarizeDistribution sc idxs).avg = .num ((idxs.length : ℚ) / (sc : ℚ)) ∧
      ∃ M : ℕ, (summarizeDistribution sc idxs).maxCount = .num (M : ℚ) ∧
        (summarizeDistribution sc idxs).maxShard <
          (summarizeDistribution sc idxs).counts.length ∧
        (summarizeDistribution sc idxs).counts.getD
          (summarizeDistribution sc idxs).maxShard 0 = M ∧
        (∀ j < (summarizeDistribution sc idxs).maxShard,
          (summarizeDistribution sc idxs).counts.getD j 0 < M) ∧
        (∀ j < (summarizeDistribution sc idxs).counts.length,
          (summarizeDistribution sc idxs).counts.getD j 0 ≤ M)) ∧
    (summarizeDistribution 4 [0, 0, 1, 2, 2, 2]).counts = [2, 1, 3, 0] ∧
    (summarizeDistribution 4 [0, 0, 1, 2, 2, 2]).totalKeys = 6 ∧
    (summarizeDistribution 4 [0, 0, 1, 2, 2, 2]).avg = .num (3 / 2) ∧
    (summarizeDistribution 4 [0, 0, 1, 2, 2, 2]).maxCount = .num 3 ∧
    (summarizeDistribution 4 [0, 0, 1, 2, 2, 2]).maxShard = 2 := by
  refine ⟨?_, by decide, by decide, ?_, by decide, by decide⟩
  case refine_2 =>
    simp only [summarize_avg_def]
    norm_num [jsDiv]
  · intro sc idxs hsc
    have hlen : (applyIndexes sc (List.replicate sc.toNat 0) idxs).length = sc.toNat := by
      rw [applyIndexes_length]; simp
    obtain ⟨c, tl, hctl⟩ :
        ∃ c tl, applyIndexes sc (List.replicate sc.toNat 0) idxs = c :: tl := by
      cases hc : applyIndexes sc (List.replicate sc.toNat 0) idxs with
      | nil =>
          rw [hc] at hlen
          simp at hlen
          omega
      | cons c tl => exact ⟨c, tl, rfl⟩
    refine ⟨rfl, ?_, ?_⟩
    · rw [summarize_avg_def, jsDiv,
        if_neg (by exact_mod_cast (by omega : ¬ (sc = 0)))]
    · obtain ⟨M, j, heq, hjlt, hget, hearly, hle⟩ := scanMax_spec c tl
      refine ⟨M, ?_, ?_, ?_, ?_, ?_⟩
      · rw [summarize_maxCount_def, hctl, heq]
      · rw [summarize_maxShard_def, summarize_counts_def, hctl, heq]
        exact hjlt
      · rw [summarize_maxShard_def, summarize_counts_def, hctl, heq]
        exact hget
      · rw [summarize_maxShard_def, summarize_counts_def, hctl, heq]
        exact hearly
      · rw [summarize_counts_def, hctl]
        exact hle

/-- Closed instantiation of `C9_summarize_stats`. -/
theorem C9_witness :
    (1 : ℤ) ≤ 4 ∧
    (summarizeDistribution 4 [0, 0, 1, 2, 2, 2]).totalKeys =
      ([0, 0, 1, 2, 2, 2] : List ℤ).length :=
  ⟨by decide, (C9_summarize_stats.1 4 [0, 0, 1, 2, 2, 2] (by decide)).1⟩

/-- C10 (amended, implicit). `summarizeDistribution` never throws for any
integer shard count below `2^32` — including 0 and all negative values —
and any list of indexes; for shard counts `≥ 2^32` the zero-array
construction (`Array.from`) throws a `RangeError` before anything else
runs.  Called with shard count 0 it returns a summary with an empty counts
array, `totalKeys` = number of indexes, `maxCount` `-Infinity`, and
`maxShard` 0, and the same fields hold for any non-positive shard count. -/
theorem C10_summarize_total :
    (∀ (sc : ℤ) (idxs : List ℤ), sc < 2 ^ 32 →
      summarizeDistributionChecked sc idxs = .ok (summarizeDistribution sc idxs) ∧
      (summarizeDistribution sc idxs).totalKeys = idxs.length) ∧
    (∀ idxs : List ℤ,
      summarizeDistributionChecked 0 idxs = .ok (summarizeDistribution 0 idxs) ∧
      (summarizeDistribution 0 idxs).counts = [] ∧
      (summarizeDistribution 0 idxs).totalKeys = idxs.length ∧
      (summarizeDistribution 0 idxs).maxCount = .negInf ∧
      (summarizeDistribution 0 idxs).maxShard = 0) ∧
    (∀ (sc : ℤ) (idxs : List ℤ), 2 ^ 32 ≤ sc →
      summarizeDistributionChecked sc idxs = .error .invalidArrayLength) ∧
    (∀ sc : ℤ, sc ≤ 0 → ∀ idxs : List ℤ,
      (summarizeDistribution sc idxs).counts = [] ∧
      (summarizeDistribution sc idxs).maxCount = .negInf ∧
      (summarizeDistribution sc idxs).maxShard = 0) := by
  have hok : ∀ (sc : ℤ) (idxs : List ℤ), sc < 2 ^ 32 →
      summarizeDistributionChecked sc idxs = .ok (summarizeDistribution sc idxs) := by
    intro sc idxs hsc
    rw [summarizeDistributionChecked, if_neg (by omega)]
  have key : ∀ sc : ℤ, sc ≤ 0 → ∀ idxs : List ℤ,
      (summarizeDistribution sc idxs).counts = [] ∧
      (summarizeDistribution sc idxs).maxCount = .negInf ∧
      (summarizeDistribution sc idxs).maxShard = 0 := by
    intro sc hsc idxs
    have h0 : sc.toNat = 0 := by omega
    have hnil : applyIndexes sc (List.replicate sc.toNat 0) idxs = [] := by
      rw [h0]
      exact applyIndexes_nil sc idxs
    refine ⟨?_, ?_, ?_⟩
    · rw [summarize_counts_def, hnil]
    · rw [summarize_maxCount_def, hnil]; rfl
    · rw [summarize_maxShard_def, hnil]; rfl
  refine ⟨fun sc idxs hsc => ⟨hok sc idxs hsc, rfl⟩, ?_, ?_, key⟩
  · intro idxs
    exact ⟨hok 0 idxs (by omega), (key 0 le_rfl idxs).1, rfl,
      (key 0 le_rfl idxs).2.1, (key 0 le_rfl idxs).2.2⟩
  · intro sc idxs hsc
    rw [summarizeDistributionChecked, if_pos hsc]

/-- Closed instantiation of `C10_summarize_total`. -/
theorem C10_witness :
    (-3 : ℤ) < 2 ^ 32 ∧
    (summarizeDistributionChecked (-3) [0, 1] =
        .ok (summarizeDistribution (-3) [0, 1]) ∧
      (summarizeDistribution (-3) [0, 1]).totalKeys = ([0, 1] : List ℤ).length) :=
  ⟨by decide, C10_summarize_total.1 (-3) [0, 1] (by decide)⟩

/-- C10 counterexample: at shard count `2^33` the very first statement of
`summarizeDistribution` — creating the zero-filled array — throws a
`RangeError` (array lengths are capped below `2^32`), so the function is
not total over all numeric shard counts. -/
theorem C10_counterexample :
    summarizeDistributionChecked (2 ^ 33) [] = .error .invalidArrayLength := by
  rw [summarizeDistributionChecked, if_pos (by decide)]

/- ---------------------------------------------------------------------
   Helper lemmas: quantifier parsing
--------------------------------------------------------------------- -/

theorem takeDigits_all (ds : List Char) (h : ∀ c ∈ ds, isDigit c = true) :
    takeDigits ds = (ds, []) := by
  induction ds with
  | nil => rfl
  | cons c tl ih =>
      have hc := h c (List.mem_cons_self c tl)
      have ih' := ih (fun x hx => h x (List.mem_cons_of_mem _ hx))
      simp [takeDigits, hc, ih']

theorem takeDigits_append (ds : List Char) (c : Char) (r : List Char)
    (h : ∀ x ∈ ds, isDigit x = true) (hc : isDigit c = false) :
    takeDigits (ds ++ c :: r) = (ds, c :: r) := by
  induction ds with
  | nil => simp [takeDigits, hc]
  | cons d tl ih =>
      have hd := h d (List.mem_cons_self d tl)
      have ih' := ih (fun x hx => h x (List.mem_cons_of_mem _ hx))
      simp [takeDigits, hd, ih']

theorem closeQuant_ok (mn mx : ℕ) (l : List Char) (a b : ℕ) (r : List Char)
    (h : closeQuant mn mx l = .ok (a, b, r)) :
    a = mn ∧ b = mx ∧ mn ≤ mx ∧ mx ≤ 100000 := by
  cases l with
  | nil => exact absurd h (by simp [closeQuant])
  | cons c tl =>
      by_cases hc : c = '}'
      · subst hc
        by_cases h1 : mx < mn
        · rw [closeQuant, if_pos h1] at h
          exact absurd h (by simp)
        · by_cases h2 : 100000 < mx
          · rw [closeQuant, if_neg h1, if_pos h2] at h
            exact absurd h (by simp)
          · rw [closeQuant, if_neg h1, if_neg h2] at h
            simp at h
            exact ⟨h.1.symm, h.2.1.symm, by omega, by omega⟩
      · rw [show closeQuant mn mx (c :: tl) = .error .quantNoClose from by
          cases c <;> simp_all [closeQuant]] at h
        exact absurd h (by simp)

theorem closeQuant_error (mn mx : ℕ) (l : List Char) (e : Err)
    (h : closeQuant mn mx l = .error e) :
    e = .quantNoClose ∨ e = .quantBadBounds ∨ e = .quantTooLarge := by
  cases l with
  | nil => simp [closeQuant] at h; tauto
  | cons c tl =>
      by_cases hc : c = '}'
      · subst hc
        by_cases h1 : mx < mn
        · rw [closeQuant, if_pos h1] at h
          simp at h; tauto
        · by_cases h2 : 100000 < mx
          · rw [closeQuant, if_neg h1, if_pos h2] at h
            simp at h; tauto
          · rw [closeQuant, if_neg h1, if_neg h2] at h
            simp at h
      · rw [show closeQuant mn mx (c :: tl) = .error .quantNoClose from by
          cases c <;> simp_all [closeQuant]] at h
        simp at h; tauto

theorem parseQuantifier_bounds (l : List Char) (mn mx : ℕ) (r : List Char)
    (h : parseQuantifier l = .ok (mn, mx, r)) : mn ≤ mx ∧ mx ≤ 100000 := by
  cases l with
  | nil =>
      simp [parseQuantifier] at h
      omega
  | cons c rest =>
      simp only [parseQuantifier] at h
      split_ifs at h with h1 h2 h3 h4 h5
      · simp at h; omega
      · simp at h; omega
      · simp at h; omega
      · split at h
        · obtain ⟨_, _, hb, hB⟩ := closeQuant_ok _ _ _ _ _ _ h
          omega
        · obtain ⟨_, _, hb, hB⟩ := closeQuant_ok _ _ _ _ _ _ h
          omega
      · simp at h; omega

theorem parseQuantifier_error (l : List Char) (e : Err)
    (h : parseQuantifier l = .error e) : e.isInvalidQuantifier = true := by
  cases l with
  | nil => simp [parseQuantifier] at h
  | cons c rest =>
      simp only [parseQuantifier] at h
      split_ifs at h with h1 h2 h3 h4 h5
      all_goals try (simp at h)
      all_goals try (subst h; rfl)
      all_goals
        split at h <;>
          (rcases closeQuant_error _ _ _ _ h with he | he | he <;> subst he <;> rfl)

theorem compileLoop_bounds :
    ∀ (fuel : ℕ) (pieces : List Piece) (l : List Char) (res : List Piece),
      compileLoop fuel pieces l = .ok res →
      (∀ pc ∈ pieces, pc.min ≤ pc.max ∧ pc.max ≤ 100000) →
      ∀ pc ∈ res, pc.min ≤ pc.max ∧ pc.max ≤ 100000 := by
  intro fuel
  induction fuel with
  | zero =>
      intro pieces l res h
      simp [compileLoop] at h
  | succ fuel ih =>
      intro pieces l res h hp
      cases l with
      | nil =>
          simp only [compileLoop] at h
          simp at h
          subst h
          exact hp
      | cons c rest =>
          simp only [compileLoop] at h
          by_cases hskip : c = '^' ∨ c = '$'
          · rw [if_pos hskip] at h
            exact ih pieces rest res h hp
          · rw [if_neg hskip] at h
            split at h
            · simp at h
            · split at h
              · simp at h
              · rename_i mn mx r2 heq
                refine ih _ _ _ h (fun pc hpc => ?_)
                rcases List.mem_append.mp hpc with hin | hin
                · exact hp pc hin
                · have hb := parseQuantifier_bounds _ _ _ _ heq
                  simp at hin
                  subst hin
                  simpa using hb

/-- C6. The quantifier suffix read after each atom: absent means `{1,1}`,
`?` means `{0,1}`, `+` means `{1,16}`, `*` means `{0,16}`, `{n}` means
`{n,n}`, `{n,}` means `{n,n+16}`, `{n,m}` means `{n,m}`; the parse fails
with an invalid-quantifier error when no digits follow `{`, when the
closing brace is missing, when `max < min`, or when `max > 100000` (bounds
are parsed from digit strings, so they cannot be negative); a quantifier
character at an atom position fails with the dangling-quantifier error; and
every piece produced by `compilePattern` satisfies
`min ≤ max ≤ 100000`. -/
theorem C6_quantifier_spec :
    (∀ rest, parseQuantifier ('?' :: rest) = .ok (0, 1, rest)) ∧
    (∀ rest, parseQuantifier ('+' :: rest) = .ok (1, 16, rest)) ∧
    (∀ rest, parseQuantifier ('*' :: rest) = .ok (0, 16, rest)) ∧
    parseQuantifier [] = .ok (1, 1, []) ∧
    (∀ c rest, c ≠ '?' → c ≠ '+' → c ≠ '*' → c ≠ '{' →
      parseQuantifier (c :: rest) = .ok (1, 1, c :: rest)) ∧
    (∀ ds rest, ds ≠ [] → (∀ c ∈ ds, isDigit c = true) →
      parseQuantifier ('{' :: (ds ++ '}' :: rest)) =
        if 100000 < digitsToNat ds then .error .quantTooLarge
        else .ok (digitsToNat ds, digitsToNat ds, rest)) ∧
    (∀ ds rest, ds ≠ [] → (∀ c ∈ ds, isDigit c = true) →
      parseQuantifier ('{' :: (ds ++ ',' :: '}' :: rest)) =
        if 100000 < digitsToNat ds + 16 then .error .quantTooLarge
        else .ok (digitsToNat ds, digitsToNat ds + 16, rest)) ∧
    (∀ ds ds2 rest, ds ≠ [] → (∀ c ∈ ds, isDigit c = true) →
      ds2 ≠ [] → (∀ c ∈ ds2, isDigit c = true) →
      parseQuantifier ('{' :: (ds ++ ',' :: (ds2 ++ '}' :: rest))) =
        if digitsToNat ds2 < digitsToNat ds then .error .quantBadBounds
        else if 100000 < digitsToNat ds2 then .error .quantTooLarge
        else .ok (digitsToNat ds, digitsToNat ds2, rest)) ∧
    parseQuantifier ['{'] = .error .quantNoDigits ∧
    (∀ c rest, isDigit c = false →
      parseQuantifier ('{' :: c :: rest) = .error .quantNoDigits) ∧
    (∀ ds, ds ≠ [] → (∀ c ∈ ds, isDigit c = true) →
      parseQuantifier ('{' :: ds) = .error .quantNoClose ∧
      parseQuantifier ('{' :: (ds ++ [','])) = .error .quantNoClose) ∧
    (∀ l e, parseQuantifier l = .error e → e.isInvalidQuantifier = true) ∧
    (∀ fuel pieces c rest, (c = '{' ∨ c = '}' ∨ c = '?' ∨ c = '+' ∨ c = '*') →
      compileLoop (fuel + 1) pieces (c :: rest) = .error .danglingQuantifier) ∧
    (∀ pattern res, compilePattern pattern = .ok res →
      ∀ pc ∈ res, pc.min ≤ pc.max ∧ pc.max ≤ 100000) := by
  refine ⟨fun rest => by simp [parseQuantifier],
    fun rest => by simp [parseQuantifier],
    fun rest => by simp [parseQuantifier],
    rfl,
    fun c rest h1 h2 h3 h4 => by simp [parseQuantifier, h1, h2, h3, h4],
    ?_, ?_, ?_, by simp [parseQuantifier, takeDigits], ?_, ?_, ?_, ?_, ?_⟩
  · intro ds rest hne hall
    have htd := takeDigits_append ds '}' rest hall (by decide)
    have hemp : ds.isEmpty = false := by simpa [List.isEmpty_iff] using hne
    simp [parseQuantifier, htd, hemp, closeQuant]
  · intro ds rest hne hall
    have htd := takeDigits_append ds ',' ('}' :: rest) hall (by decide)
    have hemp : ds.isEmpty = false := by simpa [List.isEmpty_iff] using hne
    simp [parseQuantifier, htd, hemp, takeDigits, closeQuant,
      (by decide : isDigit '}' = false),
      (by omega : ¬ (digitsToNat ds + 16 < digitsToNat ds))]
  · intro ds ds2 rest hne hall hne2 hall2
    have htd := takeDigits_append ds ',' (ds2 ++ '}' :: rest) hall (by decide)
    have htd2 := takeDigits_append ds2 '}' rest hall2 (by decide)
    have hemp : ds.isEmpty = false := by simpa [List.isEmpty_iff] using hne
    have hemp2 : ds2.isEmpty = false := by simpa [List.isEmpty_iff] using hne2
    simp [parseQuantifier, htd, htd2, hemp, hemp2, closeQuant]
  · intro c rest hc
    simp [parseQuantifier, takeDigits, hc]
  · intro ds hne hall
    have htd := takeDigits_all ds hall
    have htd2 := takeDigits_append ds ',' [] hall (by decide)
    have hemp : ds.isEmpty = false := by simpa [List.isEmpty_iff] using hne
    constructor
    · simp [parseQuantifier, htd, hemp, closeQuant]
    · simp [parseQuantifier, htd2, hemp, takeDigits, closeQuant]
  · exact parseQuantifier_error
  · intro fuel pieces c rest h
    rcases h with h | h | h | h | h <;> subst h <;> simp [compileLoop]
  · intro pattern res h
    rw [compilePattern] at h
    split_ifs at h
    exact compileLoop_bounds _ _ _ _ h (by simp)

/-- Closed instantiation of `C6_quantifier_spec`. -/
theorem C6_witness :
    ((['3'] : List Char) ≠ [] ∧ (∀ c ∈ (['3'] : List Char), isDigit c = true) ∧
     (['2'] : List Char) ≠ [] ∧ (∀ c ∈ (['2'] : List Char), isDigit c = true)) ∧
    parseQuantifier ('{' :: (['3'] ++ ',' :: (['2'] ++ '}' :: []))) =
      (if digitsToNat ['2'] < digitsToNat ['3'] then .error .quantBadBounds
       else if 100000 < digitsToNat ['2'] then .error .quantTooLarge
       else .ok (digitsToNat ['3'], digitsToNat ['2'], [])) :=
  ⟨⟨by decide, by decide, by decide, by decide⟩,
   C6_quantifier_spec.2.2.2.2.2.2.2.1 ['3'] ['2'] []
     (by decide) (by decide) (by decide) (by decide)⟩

/- ---------------------------------------------------------------------
   Helper lemmas: character classes and generation
--------------------------------------------------------------------- -/

theorem Char.toNat_ofNat_valid (n : ℕ) (h : n < 55296) :
    (Char.ofNat n).toNat = n := by
  have hv : n.isValidChar := Or.inl (by omega)
  simp [Char.ofNat, hv, Char.toNat]
  rfl

theorem rangeChars_mem (a b : Char) (hab : a.toNat ≤ b.toNat)
    (hb : b.toNat < 55296) (c : Char) :
    c ∈ (List.range (b.toNat - a.toNat + 1)).map (fun k => Char.ofNat (a.toNat + k)) ↔
      (a.toNat ≤ c.toNat ∧ c.toNat ≤ b.toNat) := by
  simp only [List.mem_map, List.mem_range]
  constructor
  · rintro ⟨k, hk, hc⟩
    have hval : (Char.ofNat (a.toNat + k)).toNat = a.toNat + k :=
      Char.toNat_ofNat_valid _ (by omega)
    rw [← hc, hval]
    omega
  · rintro ⟨h1, h2⟩
    refine ⟨c.toNat - a.toNat, by omega, ?_⟩
    have : a.toNat + (c.toNat - a.toNat) = c.toNat := by omega
    rw [this]
    exact Char.ofNat_toNat c

theorem pick_mem (l : List Char) (hne : l ≠ []) (r : ℕ) : pick l r ∈ l := by
  have hlen : 0 < l.length := List.length_pos.mpr hne
  have hidx : randInt 0 (l.length - 1) r < l.length := by
    rw [randInt]
    have he : l.length - 1 + 1 - 0 = l.length := by omega
    rw [he]
    simpa using Nat.mod_lt r hlen
  rw [pick, List.getD_eq_getElem _ _ hidx]
  exact List.getElem_mem _

theorem genRepeat_charclass (cs : List Char) (hne : cs ≠ []) :
    ∀ (n : ℕ) (g : ℕ → ℕ) (k : ℕ),
      (genRepeat (.charclass cs) n g k).1.length = n ∧
      ∀ c ∈ (genRepeat (.charclass cs) n g k).1, c ∈ cs := by
  intro n
  induction n with
  | zero => intro g k; simp [genRepeat]
  | succ n ih =>
      intro g k
      obtain ⟨ihl, ihm⟩ := ih g (k + atomDraws (.charclass cs))
      refine ⟨by simp [genRepeat, sampleAtom, ihl], ?_⟩
      intro c hc
      simp only [genRepeat, sampleAtom] at hc
      rcases List.mem_cons.mp hc with hc | hc
      · subst hc
        exact pick_mem cs hne _
      · exact ihm c hc

theorem parseCharClassLoop_ok_mem (fuel : ℕ) :
    ∀ (chars l : List Char) (res : List Char × List Char),
      parseCharClassLoop fuel chars l = .ok res → ']' ∈ l := by
  induction fuel with
  | zero => intro chars l res h; simp [parseCharClassLoop] at h
  | succ fuel ih =>
      intro chars l res h
      cases l with
      | nil => simp [parseCharClassLoop] at h
      | cons c rest =>
          rw [parseCharClassLoop.eq_def] at h
          simp only at h
          by_cases hc : c = ']'
          · exact hc ▸ List.mem_cons_self c rest
          · rw [if_neg hc] at h
            by_cases hbs : c = '\\'
            · rw [if_pos hbs] at h
              cases rest with
              | nil => simp at h
              | cons e r =>
                  exact List.mem_cons_of_mem c
                    (List.mem_cons_of_mem e (ih _ _ _ h))
            · rw [if_neg hbs] at h
              split at h
              · split at h
                · split at h
                  · simp at h
                  · rename_i hne hex
                    refine List.mem_cons_of_mem c ?_
                    exact List.mem_cons_of_mem '-'
                      (List.mem_cons_of_mem _ (ih _ _ _ h))
                · rename_i hb
                  simp only [ne_eq, not_not] at hb
                  subst hb
                  exact List.mem_cons_of_mem c
                    (List.mem_cons_of_mem '-' (List.mem_cons_self _ _))
              · exact List.mem_cons_of_mem c (ih _ _ _ h)

theorem parseCharClassLoop_unterminated (fuel : ℕ) :
    ∀ (chars l : List Char), (∀ c ∈ l, c ≠ ']' ∧ c ≠ '\\' ∧ c ≠ '-') →
      l.length < fuel →
      parseCharClassLoop fuel chars l = .error .unterminatedCharClass := by
  induction fuel with
  | zero => intro chars l _ hl; omega
  | succ fuel ih =>
      intro chars l hall hl
      cases l with
      | nil => rfl
      | cons c rest =>
          obtain ⟨hc1, hc2, _⟩ := hall c (List.mem_cons_self c rest)
          rw [parseCharClassLoop.eq_def]
          simp only
          rw [if_neg hc1, if_neg hc2]
          cases rest with
          | nil =>
              exact ih _ [] (by simp) (by simp at hl ⊢; omega)
          | cons d r' =>
              have hd : d ≠ '-' := (hall d (by simp)).2.2
              split
              · rename_i b r heq
                simp at heq
                exact absurd heq.1 hd
              · exact ih _ (d :: r')
                  (fun x hx => hall x (List.mem_cons_of_mem c hx))
                  (by simp at hl ⊢; omega)

theorem parseCharClassLoop_range_step (fuel : ℕ) (chars : List Char)
    (a b : Char) (rest : List Char)
    (ha : a ≠ ']') (ha2 : a ≠ '\\') (hb : b ≠ ']') :
    parseCharClassLoop (fuel + 1) chars (a :: '-' :: b :: rest) =
      match expandRange a b with
      | .error e => .error e
      | .ok ex => parseCharClassLoop fuel (chars ++ ex) rest := by
  rw [parseCharClassLoop.eq_def]
  simp only
  rw [if_neg ha, if_neg ha2, if_pos hb]

/-- C7. Bracket expressions: a class opening with `^` fails with the
unsupported-syntax error, an immediately closed class fails as empty, a
range `A-B` with `B`'s code point below `A`'s fails as an invalid range and
otherwise expands to every character with code point between `A` and `B`
inclusive, an escaped character contributes itself literally, and a class
whose `]` is never reached fails as unterminated.  Concretely,
`compile("[A-C]{2}")` yields exactly one piece — CharClass `['A','B','C']`
with min 2 and max 2 — and `generateOne` on it always produces exactly two
characters, each drawn from `{A,B,C}`. -/
theorem C7_char_class_spec :
    (∀ rest, parseCharClass ('[' :: '^' :: rest) = .error .negatedClass) ∧
    (∀ rest, parseCharClass ('[' :: ']' :: rest) = .error .emptyCharClass) ∧
    (∀ fuel chars e rest,
      parseCharClassLoop (fuel + 1) chars ('\\' :: e :: rest) =
        parseCharClassLoop fuel (chars ++ [e]) rest) ∧
    (∀ fuel chars a b rest, a ≠ ']' → a ≠ '\\' → b ≠ ']' →
      b.toNat < a.toNat →
      parseCharClassLoop (fuel + 1) chars (a :: '-' :: b :: rest) =
        .error .invalidRange) ∧
    (∀ fuel chars a b rest, a ≠ ']' → a ≠ '\\' → b ≠ ']' →
      a.toNat ≤ b.toNat →
      parseCharClassLoop (fuel + 1) chars (a :: '-' :: b :: rest) =
        parseCharClassLoop fuel
          (chars ++ (List.range (b.toNat - a.toNat + 1)).map
            (fun k => Char.ofNat (a.toNat + k))) rest) ∧
    (∀ a b : Char, a.toNat ≤ b.toNat → b.toNat < 55296 → ∀ c : Char,
      c ∈ (List.range (b.toNat - a.toNat + 1)).map
          (fun k => Char.ofNat (a.toNat + k)) ↔
        (a.toNat ≤ c.toNat ∧ c.toNat ≤ b.toNat)) ∧
    (∀ fuel chars l res, ']' ∉ l →
      parseCharClassLoop fuel chars l ≠ .ok res) ∧
    (∀ fuel chars l, (∀ c ∈ l, c ≠ ']' ∧ c ≠ '\\' ∧ c ≠ '-') →
      l.length < fuel →
      parseCharClassLoop fuel chars l = .error .unterminatedCharClass) ∧
    compilePattern "[A-C]{2}".toList =
      .ok [⟨.charclass ['A', 'B', 'C'], 2, 2⟩] ∧
    (∀ (g : ℕ → ℕ) (k : ℕ),
      (generateOnePieces [⟨.charclass ['A', 'B', 'C'], 2, 2⟩] g k).1.length = 2 ∧
      ∀ c ∈ (generateOnePieces [⟨.charclass ['A', 'B', 'C'], 2, 2⟩] g k).1,
        c ∈ (['A', 'B', 'C'] : List Char)) := by
  refine ⟨fun rest => rfl, fun rest => by simp [parseCharClass, parseCharClassLoop],
    fun fuel chars e rest => by simp [parseCharClassLoop],
    ?_, ?_, rangeChars_mem,
    fun fuel chars l res hmem h => hmem (parseCharClassLoop_ok_mem fuel chars l res h),
    parseCharClassLoop_unterminated,
    by decide, ?_⟩
  · intro fuel chars a b rest ha ha2 hb hlt
    rw [parseCharClassLoop_range_step fuel chars a b rest ha ha2 hb]
    rw [expandRange, if_pos hlt]
  · intro fuel chars a b rest ha ha2 hb hle
    rw [parseCharClassLoop_range_step fuel chars a b rest ha ha2 hb]
    rw [expandRange, if_neg (by omega)]
  · intro g k
    have h := genRepeat_charclass ['A', 'B', 'C'] (by decide) 2 g k
    constructor
    · simp [generateOnePieces, h.1]
    · intro c hc
      refine h.2 c ?_
      simpa [generateOnePieces] using hc

/-- Closed instantiation of `C7_char_class_spec`. -/
theorem C7_witness :
    (('z' : Char) ≠ ']' ∧ ('z' : Char) ≠ '\\' ∧ ('a' : Char) ≠ ']' ∧
      'a'.toNat < 'z'.toNat) ∧
    parseCharClassLoop (0 + 1) [] ('z' :: '-' :: 'a' :: []) =
      .error .invalidRange :=
  ⟨⟨by decide, by decide, by decide, by decide⟩,
   C7_char_class_spec.2.2.2.1 0 [] 'z' 'a' []
     (by decide) (by decide) (by decide) (by decide)⟩

theorem generateFrom_ok (pattern : List Char) (pieces : List Piece)
    (g : ℕ → ℕ) (k : ℕ) (h : compilePattern pattern = .ok pieces) :
    generateFromRegexLikePattern pattern g k =
      .ok (generateOnePieces pieces g k) := by
  rw [generateFromRegexLikePattern, h]

theorem generateManyLoop_ok (pattern : List Char) (pieces : List Piece)
    (g : ℕ → ℕ) (h : compilePattern pattern = .ok pieces) :
    ∀ n k, ∃ out k2, generateManyLoop pattern g n k = .ok (out, k2) ∧
      out.length = n := by
  intro n
  induction n with
  | zero => intro k; exact ⟨[], k, rfl, rfl⟩
  | succ n ih =>
      intro k
      obtain ⟨out, k2, hloop, hlen⟩ := ih (generateOnePieces pieces g k).2
      refine ⟨(generateOnePieces pieces g k).1 :: out, k2, ?_, by simp [hlen]⟩
      rw [generateManyLoop, generateFrom_ok pattern pieces g k h]
      simp only
      rw [hloop]

theorem generateManyLoop_error (pattern : List Char) (e : Err) (g : ℕ → ℕ)
    (h : compilePattern pattern = .error e) :
    ∀ n k, generateManyLoop pattern g (n + 1) k = .error e := by
  intro n k
  rw [generateManyLoop, generateFromRegexLikePattern, h]

/-- C4 (amended). `generateMany` clamps the requested count to `[0, 50000]`
(flooring non-integer input): a count of `-5` yields 0 results and `999999`
yields 50000; for a compilable pattern it returns exactly the clamped
number of generated strings in generation order; and for an invalid pattern
it fails with the very error `compile` raises whenever the clamped count is
at least 1 (amendment: the original claim said it fails regardless of
count, but a clamped count of 0 skips the loop — and with it the compile —
entirely and returns the empty list). -/
theorem C4_generateMany_spec :
    (∀ pattern pieces (count : ℚ) (g : ℕ → ℕ) k,
      compilePattern pattern = .ok pieces →
      ∃ out k2, generateMany pattern count g k = .ok (out, k2) ∧
        out.length = clampCount count) ∧
    (∀ count : ℚ, clampCount count ≤ 50000 ∧
      (⌊count⌋ ≤ 0 → clampCount count = 0) ∧
      (0 ≤ ⌊count⌋ → ⌊count⌋ ≤ 50000 → (clampCount count : ℤ) = ⌊count⌋) ∧
      (50000 ≤ ⌊count⌋ → clampCount count = 50000)) ∧
    clampCount (-5) = 0 ∧ clampCount 999999 = 50000 ∧
    (∀ pattern e (count : ℚ) (g : ℕ → ℕ) k,
      compilePattern pattern = .error e → 1 ≤ clampCount count →
      generateMany pattern count g k = .error e) := by
  refine ⟨?_, ?_, by decide, by decide, ?_⟩
  · intro pattern pieces count g k h
    obtain ⟨out, k2, hloop, hlen⟩ :=
      generateManyLoop_ok pattern pieces g h (clampCount count) k
    exact ⟨out, k2, hloop, hlen⟩
  · intro count
    simp only [clampCount]
    omega
  · intro pattern e count g k h h1
    obtain ⟨m, hm⟩ : ∃ m, clampCount count = m + 1 :=
      ⟨clampCount count - 1, by omega⟩
    rw [generateMany, hm]
    exact generateManyLoop_error pattern e g h m k

/-- Closed instantiation of `C4_generateMany_spec`. -/
theorem C4_witness :
    compilePattern ['a'] = .ok [⟨.literal 'a', 1, 1⟩] ∧
    ∃ out k2, generateMany ['a'] 3 (fun _ => 0) 0 = .ok (out, k2) ∧
      out.length = clampCount 3 :=
  ⟨by decide,
   C4_generateMany_spec.1 ['a'] [⟨.literal 'a', 1, 1⟩] 3 (fun _ => 0) 0 (by decide)⟩

/-- C4 counterexample: the pattern `?` is invalid (compile fails with the
dangling-quantifier error), yet `generateMany("?", -5)` succeeds with no
results — the clamped count 0 skips compilation, contradicting "fails
regardless of count". -/
theorem C4_counterexample :
    compilePattern ['?'] = .error .danglingQuantifier ∧
    generateMany ['?'] (-5) (fun _ => 0) 0 = .ok ([], 0) := by
  constructor
  · decide
  · decide
